import Mathlib

/-!
Verification of the shared/weak-pointer core of the SmartPointers repository.

The embedding models the two-counter control blocks (`ControlBlockPointer`,
`ControlBlockObject`), `SharedPtr` and `WeakPtr` as records over a heap of
live control blocks, keyed by identity.  Counters are `Nat`; every counter
decrement performed by the source is guarded by the pointer layer, so the
counters never underflow in reachable states.  A null pointer is `none`.
-/

namespace SmartPointers

/-- Strong and weak counters of one control block
(fields `shared_cnt_`, `weak_cnt_` of the source classes). -/
structure CB where
  shared_cnt : Nat
  weak_cnt : Nat
deriving DecidableEq

/-- The heap of currently allocated control blocks, keyed by identity.
A block is removed from the list when the source executes `delete this`. -/
abbrev Blocks := List (Nat × CB)

def findA {α : Type} (k : Nat) : List (Nat × α) → Option α
  | [] => none
  | e :: t => if e.1 = k then some e.2 else findA k t

def updA {α : Type} (k : Nat) (v : α) : List (Nat × α) → List (Nat × α)
  | [] => []
  | e :: t => if e.1 = k then (k, v) :: t else e :: updA k v t

def delA {α : Type} (k : Nat) : List (Nat × α) → List (Nat × α)
  | [] => []
  | e :: t => if e.1 = k then t else e :: delA k t

def keysOf {α : Type} (l : List (Nat × α)) : List Nat := l.map Prod.fst

/-- `ControlBlockPointer::IncreaseSharedCounter` / `ControlBlockObject::IncreaseSharedCounter`:
`++shared_cnt_`. A lookup failure means the block is gone; the source would
never reach that case through a live handle. -/
def incSharedB (b : Nat) (bs : Blocks) : Blocks :=
  match findA b bs with
  | none => bs
  | some c => updA b ⟨c.shared_cnt + 1, c.weak_cnt⟩ bs

/-- `DecreaseSharedCounter`: `if (!--shared_cnt_) delete payload;
if (!weak_cnt_ && !shared_cnt_) delete this;`.  Payload death is not tracked
at heap level (see `LifeSt` for the per-block lifecycle machine). -/
def decSharedB (b : Nat) (bs : Blocks) : Blocks :=
  match findA b bs with
  | none => bs
  | some c =>
    if c.weak_cnt = 0 ∧ c.shared_cnt - 1 = 0 then delA b bs
    else updA b ⟨c.shared_cnt - 1, c.weak_cnt⟩ bs

/-- `IncreaseWeakCounter`: `++weak_cnt_`. -/
def incWeakB (b : Nat) (bs : Blocks) : Blocks :=
  match findA b bs with
  | none => bs
  | some c => updA b ⟨c.shared_cnt, c.weak_cnt + 1⟩ bs

/-- `DecreaseWeakCounter`: `if (!--weak_cnt_ && !shared_cnt_) delete this;`. -/
def decWeakB (b : Nat) (bs : Blocks) : Blocks :=
  match findA b bs with
  | none => bs
  | some c =>
    if c.weak_cnt - 1 = 0 ∧ c.shared_cnt = 0 then delA b bs
    else updA b ⟨c.shared_cnt, c.weak_cnt - 1⟩ bs

/-- `SharedPtr<T>`: `cb_` (reference to a control block, `none` = null) and
`observed_` (the exposed address, `none` = null). -/
structure SharedPtr where
  cb : Option Nat
  observed : Option Nat
deriving DecidableEq

/-- `WeakPtr<T>`: same two fields. -/
structure WeakPtr where
  cb : Option Nat
  observed : Option Nat
deriving DecidableEq

/-- A default-constructed (empty) `SharedPtr`. -/
def emptyS : SharedPtr := ⟨none, none⟩

/-- A default-constructed (empty) `WeakPtr`. -/
def emptyW : WeakPtr := ⟨none, none⟩

/-- `SharedPtr::IncreaseCBCounter`: `if (cb_) cb_->IncreaseSharedCounter();`. -/
def SharedPtr.IncreaseCBCounter (bs : Blocks) (p : SharedPtr) : Blocks :=
  match p.cb with
  | none => bs
  | some b => incSharedB b bs

/-- `SharedPtr::DecreaseCBCounter`: `if (cb_) cb_->DecreaseSharedCounter();`. -/
def SharedPtr.DecreaseCBCounter (bs : Blocks) (p : SharedPtr) : Blocks :=
  match p.cb with
  | none => bs
  | some b => decSharedB b bs

/-- `SharedPtr::GetCBCounter`: `if (cb_) return cb_->GetSharedCounter(); return 0;`. -/
def SharedPtr.GetCBCounter (bs : Blocks) (p : SharedPtr) : Nat :=
  match p.cb with
  | none => 0
  | some b =>
    match findA b bs with
    | none => 0
    | some c => c.shared_cnt

/-- `SharedPtr::UseCount`. -/
def SharedPtr.UseCount (bs : Blocks) (p : SharedPtr) : Nat :=
  SharedPtr.GetCBCounter bs p

/-- `SharedPtr::operator bool`: `reinterpret_cast<T*>(observed_)` — tests the
observed address, not the control block. -/
def SharedPtr.toBool (p : SharedPtr) : Bool :=
  p.observed.isSome

/-- `WeakPtr::IncreaseCBCounter`: `if (cb_) cb_->IncreaseWeakCounter();`. -/
def WeakPtr.IncreaseCBCounter (bs : Blocks) (w : WeakPtr) : Blocks :=
  match w.cb with
  | none => bs
  | some b => incWeakB b bs

/-- `WeakPtr::DecreaseCBCounter`: `if (cb_) cb_->DecreaseWeakCounter();`. -/
def WeakPtr.DecreaseCBCounter (bs : Blocks) (w : WeakPtr) : Blocks :=
  match w.cb with
  | none => bs
  | some b => decWeakB b bs

/-- `WeakPtr::GetCBCounter`: `if (cb_) return cb_->GetSharedCounter(); return 0;`
— reads the strong counter. -/
def WeakPtr.GetCBCounter (bs : Blocks) (w : WeakPtr) : Nat :=
  match w.cb with
  | none => 0
  | some b =>
    match findA b bs with
    | none => 0
    | some c => c.shared_cnt

/-- `WeakPtr::UseCount`. -/
def WeakPtr.UseCount (bs : Blocks) (w : WeakPtr) : Nat :=
  WeakPtr.GetCBCounter bs w

/-- `WeakPtr::Expired`: `!GetCBCounter()`. -/
def WeakPtr.Expired (bs : Blocks) (w : WeakPtr) : Bool :=
  WeakPtr.GetCBCounter bs w == 0

/-- `WeakPtr::Lock` (weak.h 113-122): returns a default `SharedPtr` when
expired, otherwise copies `cb_`/`observed_` and increments the strong count. -/
def WeakPtr.Lock (bs : Blocks) (w : WeakPtr) : SharedPtr × Blocks :=
  if WeakPtr.Expired bs w then (emptyS, bs)
  else
    (⟨w.cb, w.observed⟩, SharedPtr.IncreaseCBCounter bs ⟨w.cb, w.observed⟩)

/-- The promoting constructor `SharedPtr(const WeakPtr<T>&)` (part_000 383-390):
throws `BadWeakPtr` (modelled by `none`) when `other.Expired()`, otherwise
copies the fields and increments the strong count. -/
def SharedPtr.fromWeakPtr (bs : Blocks) (w : WeakPtr) : Option SharedPtr × Blocks :=
  if WeakPtr.Expired bs w then (none, bs)
  else
    (some ⟨w.cb, w.observed⟩, SharedPtr.IncreaseCBCounter bs ⟨w.cb, w.observed⟩)

/-- The demoting constructor `WeakPtr(const SharedPtr<T>&)` (weak.h 27-31):
copies both fields and increments the weak count only when
`other.operator bool()` holds, i.e. when the observed address is non-null. -/
def WeakPtr.fromSharedPtr (bs : Blocks) (s : SharedPtr) : WeakPtr × Blocks :=
  if SharedPtr.toBool s then
    (⟨s.cb, s.observed⟩, WeakPtr.IncreaseCBCounter bs ⟨s.cb, s.observed⟩)
  else
    (⟨s.cb, s.observed⟩, bs)

/-- `WeakPtr::operator=(const SharedPtr<T>&)` (weak.h 70-79): early-returns
when the two handles already share one control block. -/
def WeakPtr.assignSharedPtr (bs : Blocks) (w : WeakPtr) (s : SharedPtr) :
    WeakPtr × Blocks :=
  if w.cb = s.cb then (w, bs)
  else
    (⟨s.cb, s.observed⟩,
      WeakPtr.IncreaseCBCounter (WeakPtr.DecreaseCBCounter bs w) ⟨s.cb, s.observed⟩)

/-- The aliasing constructor `SharedPtr(const SharedPtr<Y>& other, T* ptr)`
(part_000 376-379): shares `other`'s block, observed address supplied by the
caller. -/
def SharedPtr.aliasCon (bs : Blocks) (other : SharedPtr) (ptr : Option Nat) :
    SharedPtr × Blocks :=
  (⟨other.cb, ptr⟩, SharedPtr.IncreaseCBCounter bs other)

/-- `explicit SharedPtr(T* ptr)` (part_000 340): always allocates a fresh
`ControlBlockPointer`, even for a null address.  `fresh` models the address
of the `new`-allocated block. -/
def SharedPtr.adoptRaw (bs : Blocks) (fresh : Nat) (ptr : Option Nat) :
    SharedPtr × Blocks :=
  (⟨some fresh, ptr⟩, (fresh, ⟨1, 0⟩) :: bs)

/-- `MakeShared` (part_000 504-510): one fresh `ControlBlockObject` with
strong = 1; the observed address is the block's embedded payload, never null. -/
def SharedPtr.makeSharedL (bs : Blocks) (fresh : Nat) (addr : Nat) :
    SharedPtr × Blocks :=
  (⟨some fresh, some addr⟩, (fresh, ⟨1, 0⟩) :: bs)

/-- The copy constructor `SharedPtr(const SharedPtr&)`: copies the fields and
increments the strong count. -/
def SharedPtr.copyConL (bs : Blocks) (p : SharedPtr) : SharedPtr × Blocks :=
  (⟨p.cb, p.observed⟩, SharedPtr.IncreaseCBCounter bs p)

/-- The move constructor: transfers the fields, empties the source,
touches no counter.  Returns (new handle, moved-from handle). -/
def SharedPtr.moveConL (p : SharedPtr) : SharedPtr × SharedPtr :=
  (⟨p.cb, p.observed⟩, emptyS)

/-- `SharedPtr::Reset()` (part_000 427-431): release and empty. -/
def SharedPtr.resetL (bs : Blocks) (p : SharedPtr) : SharedPtr × Blocks :=
  (emptyS, SharedPtr.DecreaseCBCounter bs p)

/-- `SharedPtr::Reset(T* ptr)` (part_000 433-437): release, then adopt a fresh
Separate block around `ptr`. -/
def SharedPtr.resetPtrL (bs : Blocks) (p : SharedPtr) (fresh : Nat)
    (ptr : Option Nat) : SharedPtr × Blocks :=
  (⟨some fresh, ptr⟩, (fresh, ⟨1, 0⟩) :: SharedPtr.DecreaseCBCounter bs p)

/-- `SharedPtr::Swap`: exchanges the two field pairs, touching no block. -/
def SharedPtr.swapL (p q : SharedPtr) : SharedPtr × SharedPtr :=
  (⟨q.cb, q.observed⟩, ⟨p.cb, p.observed⟩)

----------------------------------------------------------------------------
-- Claims C3, C4, C5: WeakPtr observation and promotion
----------------------------------------------------------------------------

/-- C5: `w.Expired()` returns true iff `w`'s control block is empty or that
block's strong count is 0; in particular this holds however large the block's
weak count is. -/
theorem claim_C5 : ∀ (bs : Blocks) (w : WeakPtr),
    (w.cb = none → WeakPtr.Expired bs w = true) ∧
    (∀ b c, w.cb = some b → findA b bs = some c →
      (WeakPtr.Expired bs w = true ↔ c.shared_cnt = 0)) := by
  intro bs w
  refine ⟨?_, ?_⟩
  · intro h
    simp [WeakPtr.Expired, WeakPtr.GetCBCounter, h]
  · intro b c hb hf
    simp [WeakPtr.Expired, WeakPtr.GetCBCounter, hb, hf]

/-- Witness for C5 at a block with strong = 0, weak = 3. -/
theorem claim_C5_witness :
    WeakPtr.Expired [(0, (⟨0, 3⟩ : CB))] ⟨some 0, some 7⟩ = true :=
  ((claim_C5 [(0, ⟨0, 3⟩)] ⟨some 0, some 7⟩).2 0 ⟨0, 3⟩ rfl rfl).mpr rfl

theorem findA_updA_self {α : Type} (k : Nat) (v : α) (l : List (Nat × α)) :
    findA k (updA k v l) = (findA k l).map (fun _ => v) := by
  induction l with
  | nil => rfl
  | cons e t ih =>
    by_cases h : e.1 = k
    · simp [findA, updA, h]
    · simp [findA, updA, h, ih]

theorem findA_updA_ne {α : Type} {k k' : Nat} (h : k' ≠ k) (v : α)
    (l : List (Nat × α)) : findA k' (updA k v l) = findA k' l := by
  induction l with
  | nil => rfl
  | cons e t ih =>
    by_cases he : e.1 = k
    · subst he
      simp [findA, updA, Ne.symm h, ih]
    · simp only [updA, if_neg he, findA]
      by_cases he' : e.1 = k'
      · simp [he']
      · simp [he', ih]

/-- C3: `Lock()` on an expired `WeakPtr` returns an empty `SharedPtr` and
changes no counter; on a live one it returns a handle sharing the block and
observed address, with the strong count exactly one greater, the weak count
unchanged, and every other block untouched. -/
theorem claim_C3 : ∀ (bs : Blocks) (w : WeakPtr),
    (WeakPtr.Expired bs w = true → WeakPtr.Lock bs w = (emptyS, bs)) ∧
    (WeakPtr.Expired bs w = false →
      (WeakPtr.Lock bs w).1.cb = w.cb ∧
      (WeakPtr.Lock bs w).1.observed = w.observed ∧
      (WeakPtr.Lock bs w).1.cb ≠ none ∧
      ∀ b, w.cb = some b → ∃ c, findA b bs = some c ∧ c.shared_cnt ≠ 0 ∧
        findA b (WeakPtr.Lock bs w).2 = some ⟨c.shared_cnt + 1, c.weak_cnt⟩ ∧
        ∀ b', b' ≠ b → findA b' (WeakPtr.Lock bs w).2 = findA b' bs) := by
  intro bs w
  refine ⟨?_, ?_⟩
  · intro h
    simp [WeakPtr.Lock, h]
  · intro h
    have hcnt : WeakPtr.GetCBCounter bs w ≠ 0 := by
      intro h0
      simp [WeakPtr.Expired, h0] at h
    match hw : w.cb with
    | none => simp [WeakPtr.GetCBCounter, hw] at hcnt
    | some b =>
      match hf : findA b bs with
      | none => simp [WeakPtr.GetCBCounter, hw, hf] at hcnt
      | some c =>
        have hs : c.shared_cnt ≠ 0 := by
          simpa [WeakPtr.GetCBCounter, hw, hf] using hcnt
        refine ⟨by simp [WeakPtr.Lock, h, hw], by simp [WeakPtr.Lock, h], ?_, ?_⟩
        · simp [WeakPtr.Lock, h, hw]
        · intro b0 hb0
          injection hb0 with hbb
          subst hbb
          refine ⟨c, hf, hs, ?_, ?_⟩
          · simp [WeakPtr.Lock, h, SharedPtr.IncreaseCBCounter, hw, incSharedB, hf,
              findA_updA_self]
          · intro b' hb'
            simp [WeakPtr.Lock, h, SharedPtr.IncreaseCBCounter, hw, incSharedB, hf,
              findA_updA_ne hb']

/-- Witness for C3's live branch at a block with strong = 2, weak = 1. -/
theorem claim_C3_witness :
    (WeakPtr.Lock [(0, (⟨2, 1⟩ : CB))] ⟨some 0, some 7⟩).1.observed = some 7 :=
  ((claim_C3 [(0, ⟨2, 1⟩)] ⟨some 0, some 7⟩).2 (by decide)).2.1

/-- C4: strict promotion `SharedPtr(const WeakPtr<T>&)` raises `BadWeakPtr`
exactly when the weak handle reports a zero strong count (`GetCBCounter`,
which also returns 0 for an empty handle); the error path changes nothing;
the success path shares the block and observed address with strong + 1. -/
theorem claim_C4 : ∀ (bs : Blocks) (w : WeakPtr),
    ((SharedPtr.fromWeakPtr bs w).1 = none ↔ WeakPtr.GetCBCounter bs w = 0) ∧
    (∀ b c, w.cb = some b → findA b bs = some c →
      ((SharedPtr.fromWeakPtr bs w).1 = none ↔ c.shared_cnt = 0)) ∧
    ((SharedPtr.fromWeakPtr bs w).1 = none → (SharedPtr.fromWeakPtr bs w).2 = bs) ∧
    (∀ r, (SharedPtr.fromWeakPtr bs w).1 = some r →
      r.cb = w.cb ∧ r.observed = w.observed ∧
      ∀ b, w.cb = some b → ∃ c, findA b bs = some c ∧
        findA b (SharedPtr.fromWeakPtr bs w).2 = some ⟨c.shared_cnt + 1, c.weak_cnt⟩) := by
  intro bs w
  by_cases hx : WeakPtr.Expired bs w = true
  · have h0 : WeakPtr.GetCBCounter bs w = 0 := by
      simpa [WeakPtr.Expired] using hx
    refine ⟨by simp [SharedPtr.fromWeakPtr, hx, h0], ?_, ?_, ?_⟩
    · intro b c hb hf
      simp only [SharedPtr.fromWeakPtr, hx, if_true]
      simp [WeakPtr.GetCBCounter, hb, hf] at h0
      simp [h0]
    · intro _
      simp [SharedPtr.fromWeakPtr, hx]
    · intro r hr
      simp [SharedPtr.fromWeakPtr, hx] at hr
  · have hx' : WeakPtr.Expired bs w = false := by
      cases h : WeakPtr.Expired bs w
      · rfl
      · exact absurd h hx
    have hcnt : WeakPtr.GetCBCounter bs w ≠ 0 := by
      intro h0
      simp [WeakPtr.Expired, h0] at hx'
    match hw : w.cb with
    | none => simp [WeakPtr.GetCBCounter, hw] at hcnt
    | some b =>
      match hf : findA b bs with
      | none => simp [WeakPtr.GetCBCounter, hw, hf] at hcnt
      | some c =>
        have hs : c.shared_cnt ≠ 0 := by
          simpa [WeakPtr.GetCBCounter, hw, hf] using hcnt
        refine ⟨by simp [SharedPtr.fromWeakPtr, hx', hcnt], ?_, ?_, ?_⟩
        · intro b0 c0 hb0 hf0
          injection hb0 with hbb
          subst hbb
          rw [hf] at hf0
          injection hf0 with hcc
          subst hcc
          simp [SharedPtr.fromWeakPtr, hx', hs]
        · intro hnone
          simp [SharedPtr.fromWeakPtr, hx'] at hnone
        · intro r hr
          simp only [SharedPtr.fromWeakPtr, hx', if_false] at hr ⊢
          cases hr
          refine ⟨by simp [hw], rfl, ?_⟩
          intro b0 hb0
          injection hb0 with hbb
          subst hbb
          exact ⟨c, hf, by
            simp [hx', SharedPtr.IncreaseCBCounter, hw, incSharedB, hf, findA_updA_self]⟩

/-- Witness for C4: promotion succeeds on a live block. -/
theorem claim_C4_witness :
    (SharedPtr.fromWeakPtr [(0, (⟨1, 2⟩ : CB))] ⟨some 0, some 9⟩).1 ≠ none := by
  intro h
  have := ((claim_C4 [(0, ⟨1, 2⟩)] ⟨some 0, some 9⟩).2.1 0 ⟨1, 2⟩ rfl rfl).mp h
  exact absurd this (by decide)

----------------------------------------------------------------------------
-- Claim C6: WeakPtr construction from a SharedPtr
----------------------------------------------------------------------------

/-- C6 as stated is false: the constructor tests `other.operator bool()`,
i.e. the observed address, not the control-block reference.  A `SharedPtr`
holding a block but a null observed address (obtainable from the public
aliasing constructor) does not get its weak count incremented. -/
theorem claim_C6_cex :
    ((⟨some 0, none⟩ : SharedPtr).cb ≠ none) ∧
    (WeakPtr.fromSharedPtr [(0, (⟨1, 0⟩ : CB))] ⟨some 0, none⟩).2 = [(0, ⟨1, 0⟩)] ∧
    ¬ (WeakPtr.fromSharedPtr [(0, (⟨1, 0⟩ : CB))] ⟨some 0, none⟩).2 = [(0, ⟨1, 1⟩)] := by
  decide

/-- C6 amended: constructing a `WeakPtr` from a `SharedPtr` `s` increments
the weak count iff `s`'s observed address is non-null (the `operator bool()`
test) and `s` holds a control block; in every case the new `WeakPtr` copies
`s`'s control block and observed address. -/
theorem claim_C6_amended : ∀ (bs : Blocks) (s : SharedPtr),
    (WeakPtr.fromSharedPtr bs s).1 = ⟨s.cb, s.observed⟩ ∧
    ((s.observed = none ∨ s.cb = none) → (WeakPtr.fromSharedPtr bs s).2 = bs) ∧
    (∀ b c, s.observed ≠ none → s.cb = some b → findA b bs = some c →
      findA b (WeakPtr.fromSharedPtr bs s).2 = some ⟨c.shared_cnt, c.weak_cnt + 1⟩ ∧
      ∀ b', b' ≠ b → findA b' (WeakPtr.fromSharedPtr bs s).2 = findA b' bs) := by
  intro bs s
  refine ⟨?_, ?_, ?_⟩
  · by_cases h : SharedPtr.toBool s <;> simp [WeakPtr.fromSharedPtr, h]
  · intro h
    rcases h with h | h
    · simp [WeakPtr.fromSharedPtr, SharedPtr.toBool, h]
    · by_cases ho : SharedPtr.toBool s
      · simp [WeakPtr.fromSharedPtr, ho, WeakPtr.IncreaseCBCounter, h]
      · simp [WeakPtr.fromSharedPtr, ho]
  · intro b c hobs hcb hf
    have htb : SharedPtr.toBool s = true := by
      cases ho : s.observed
      · exact absurd ho hobs
      · simp [SharedPtr.toBool, ho]
    constructor
    · simp [WeakPtr.fromSharedPtr, htb, WeakPtr.IncreaseCBCounter, hcb, incWeakB, hf,
        findA_updA_self]
    · intro b' hb'
      simp [WeakPtr.fromSharedPtr, htb, WeakPtr.IncreaseCBCounter, hcb, incWeakB, hf,
        findA_updA_ne hb']

/-- Witness for the amended C6 on a live, well-formed source handle. -/
theorem claim_C6_amended_witness :
    findA 0 (WeakPtr.fromSharedPtr [(0, (⟨2, 0⟩ : CB))] ⟨some 0, some 4⟩).2 =
      some ⟨2, 1⟩ :=
  ((claim_C6_amended [(0, ⟨2, 0⟩)] ⟨some 0, some 4⟩).2.2 0 ⟨2, 0⟩ (by decide) rfl rfl).1

----------------------------------------------------------------------------
-- Claim C7: observed empty iff control block empty
----------------------------------------------------------------------------

/-- The spec invariant on one handle: the observed address is null exactly
when the control-block reference is null. -/
def obsInv (p : SharedPtr) : Prop := p.cb = none ↔ p.observed = none

instance (p : SharedPtr) : Decidable (obsInv p) := by
  unfold obsInv
  infer_instance

/-- C7 as stated is false: the public aliasing constructor applied to an
empty source with a non-null caller-supplied address yields a handle with an
empty control-block reference but a non-empty observed address. -/
theorem claim_C7_cex :
    (SharedPtr.aliasCon [] emptyS (some 1)).1.cb = none ∧
    (SharedPtr.aliasCon [] emptyS (some 1)).1.observed ≠ none := by
  decide

/-- C7 amended: the invariant `observed empty iff control block empty` is
established by default/nullptr construction, `MakeShared`, and `Reset()`;
preserved by copy, move, promotion and `Swap`; and established by raw-pointer
adoption, `Reset(ptr)` and aliasing construction provided the supplied
address is non-null and (for aliasing) the source is non-empty.  An aliasing
construction from an empty source or with a null address can break it. -/
theorem claim_C7_amended :
    obsInv emptyS ∧
    (∀ bs fresh ptr, ptr ≠ none → obsInv (SharedPtr.adoptRaw bs fresh ptr).1) ∧
    (∀ bs fresh addr, obsInv (SharedPtr.makeSharedL bs fresh addr).1) ∧
    (∀ bs p, obsInv p → obsInv (SharedPtr.copyConL bs p).1) ∧
    (∀ p, obsInv p →
      obsInv (SharedPtr.moveConL p).1 ∧ obsInv (SharedPtr.moveConL p).2) ∧
    (∀ bs (w : WeakPtr), (w.cb = none ↔ w.observed = none) →
      ∀ r, (SharedPtr.fromWeakPtr bs w).1 = some r → obsInv r) ∧
    (∀ bs p, obsInv (SharedPtr.resetL bs p).1) ∧
    (∀ bs p fresh ptr, ptr ≠ none → obsInv (SharedPtr.resetPtrL bs p fresh ptr).1) ∧
    (∀ p q, obsInv p → obsInv q →
      obsInv (SharedPtr.swapL p q).1 ∧ obsInv (SharedPtr.swapL p q).2) ∧
    (∀ bs other ptr, other.cb ≠ none → ptr ≠ none →
      obsInv (SharedPtr.aliasCon bs other ptr).1) := by
  refine ⟨by simp [obsInv, emptyS], ?_, ?_, ?_, ?_, ?_, ?_, ?_, ?_, ?_⟩
  · intro bs fresh ptr h
    simp [obsInv, SharedPtr.adoptRaw, h]
  · intro bs fresh addr
    simp [obsInv, SharedPtr.makeSharedL]
  · intro bs p h
    simpa [obsInv, SharedPtr.copyConL] using h
  · intro p h
    exact ⟨by simpa [obsInv, SharedPtr.moveConL] using h,
      by simp [obsInv, SharedPtr.moveConL, emptyS]⟩
  · intro bs w hw r hr
    by_cases hx : WeakPtr.Expired bs w
    · simp [SharedPtr.fromWeakPtr, hx] at hr
    · have hx' : WeakPtr.Expired bs w = false := by
        cases h : WeakPtr.Expired bs w
        · rfl
        · exact absurd h hx
      simp [SharedPtr.fromWeakPtr, hx'] at hr
      subst hr
      simpa [obsInv] using hw
  · intro bs p
    simp [obsInv, SharedPtr.resetL, emptyS]
  · intro bs p fresh ptr h
    simp [obsInv, SharedPtr.resetPtrL, h]
  · intro p q hp hq
    exact ⟨by simpa [obsInv, SharedPtr.swapL] using hq,
      by simpa [obsInv, SharedPtr.swapL] using hp⟩
  · intro bs other ptr hcb hp
    simp [obsInv, SharedPtr.aliasCon, hcb, hp]

/-- Witness for the amended C7: aliasing a live handle with a real address. -/
theorem claim_C7_amended_witness :
    obsInv (SharedPtr.aliasCon [(0, (⟨1, 0⟩ : CB))] ⟨some 0, some 3⟩ (some 8)).1 :=
  claim_C7_amended.2.2.2.2.2.2.2.2.2 [(0, ⟨1, 0⟩)] ⟨some 0, some 3⟩ (some 8)
    (by decide) (by decide)

----------------------------------------------------------------------------
-- Claim C9: WeakPtr assignment from a SharedPtr sharing the block
----------------------------------------------------------------------------

/-- C9: `w = s` is a complete no-op when `w` already references `s`'s control
block: the handle (including its cached observed address) and the whole block
heap are returned unchanged. -/
theorem claim_C9 : ∀ (bs : Blocks) (w : WeakPtr) (s : SharedPtr),
    w.cb = s.cb → WeakPtr.assignSharedPtr bs w s = (w, bs) := by
  intro bs w s h
  simp [WeakPtr.assignSharedPtr, h]

/-- Witness for C9: same block, different (aliased) observed addresses;
nothing changes, in particular `w` keeps observed address 1, not 2. -/
theorem claim_C9_witness :
    WeakPtr.assignSharedPtr [(0, (⟨1, 1⟩ : CB))] ⟨some 0, some 1⟩ ⟨some 0, some 2⟩ =
      (⟨some 0, some 1⟩, [(0, ⟨1, 1⟩)]) :=
  claim_C9 [(0, ⟨1, 1⟩)] ⟨some 0, some 1⟩ ⟨some 0, some 2⟩ rfl

----------------------------------------------------------------------------
-- Claim C10: operations on empty handles
----------------------------------------------------------------------------

/-- C10 as stated is false in one point: `operator bool()` tests the observed
address, so a handle with a null control-block reference but a non-null
observed address (obtainable from the public aliasing constructor) is "empty"
in the claim's sense yet reports `true`. -/
theorem claim_C10_cex :
    (⟨none, some 1⟩ : SharedPtr).cb = none ∧
    SharedPtr.toBool ⟨none, some 1⟩ = true := by
  decide

/-- C10 amended: every operation on a handle whose control-block reference is
null touches no control block: destruction/copy/Reset leave the heap
unchanged, `UseCount()` is 0, an empty `WeakPtr` is expired, and `Swap` never
reads a block; `operator bool()` returns false provided the observed address
is also null (which holds for every empty handle not built by aliasing). -/
theorem claim_C10_amended : ∀ (bs : Blocks) (p : SharedPtr) (q : WeakPtr),
    p.cb = none → q.cb = none →
    SharedPtr.DecreaseCBCounter bs p = bs ∧
    SharedPtr.IncreaseCBCounter bs p = bs ∧
    (SharedPtr.resetL bs p).2 = bs ∧
    (SharedPtr.copyConL bs p).2 = bs ∧
    SharedPtr.UseCount bs p = 0 ∧
    (p.observed = none → SharedPtr.toBool p = false) ∧
    WeakPtr.DecreaseCBCounter bs q = bs ∧
    WeakPtr.IncreaseCBCounter bs q = bs ∧
    WeakPtr.UseCount bs q = 0 ∧
    WeakPtr.Expired bs q = true ∧
    (∀ r, SharedPtr.swapL p r = (⟨r.cb, r.observed⟩, ⟨p.cb, p.observed⟩)) := by
  intro bs p q hp hq
  refine ⟨?_, ?_, ?_, ?_, ?_, ?_, ?_, ?_, ?_, ?_, ?_⟩
  · simp [SharedPtr.DecreaseCBCounter, hp]
  · simp [SharedPtr.IncreaseCBCounter, hp]
  · simp [SharedPtr.resetL, SharedPtr.DecreaseCBCounter, hp]
  · simp [SharedPtr.copyConL, SharedPtr.IncreaseCBCounter, hp]
  · simp [SharedPtr.UseCount, SharedPtr.GetCBCounter, hp]
  · intro ho
    simp [SharedPtr.toBool, ho]
  · simp [WeakPtr.DecreaseCBCounter, hq]
  · simp [WeakPtr.IncreaseCBCounter, hq]
  · simp [WeakPtr.UseCount, WeakPtr.GetCBCounter, hq]
  · simp [WeakPtr.Expired, WeakPtr.GetCBCounter, hq]
  · intro r
    rfl

/-- Witness for the amended C10 on canonical empty handles over a non-empty
heap. -/
theorem claim_C10_amended_witness :
    SharedPtr.UseCount [(0, (⟨5, 2⟩ : CB))] emptyS = 0 :=
  (claim_C10_amended [(0, ⟨5, 2⟩)] emptyS emptyW rfl rfl).2.2.2.2.1

----------------------------------------------------------------------------
-- Claim C8: EnableSharedFromThis
----------------------------------------------------------------------------

theorem keysOf_updA {α : Type} (k : Nat) (v : α) (l : List (Nat × α)) :
    keysOf (updA k v l) = keysOf l := by
  induction l with
  | nil => rfl
  | cons e t ih =>
    by_cases h : e.1 = k
    · simp [updA, h, keysOf]
    · simp [updA, h, keysOf] at ih ⊢
      exact ih

/-- Modelled from the spec: the source only declares
`EnableSharedFromThis::SharedFromThis` / `WeakFromThis` (part_000 513-521);
their definitions and the back-reference they use are not under src/.  Per
the spec, the payload keeps "a weak (non-owning) link from a payload instance
to its own governing control block, populated at the moment the instance
first comes under shared ownership". -/
structure EnableSharedFromThis where
  weak_this : WeakPtr
deriving DecidableEq

/-- Modelled from the spec: populating the back-reference when the instance
first comes under shared ownership, via the embedded WeakPtr-from-SharedPtr
construction. -/
def EnableSharedFromThis.enshare (bs : Blocks) (s : SharedPtr) :
    EnableSharedFromThis × Blocks :=
  (⟨(WeakPtr.fromSharedPtr bs s).1⟩, (WeakPtr.fromSharedPtr bs s).2)

/-- Modelled from the spec: `SharedFromThis` mints an owning handle from the
stored back-reference (the embedded promoting constructor). -/
def EnableSharedFromThis.SharedFromThis (bs : Blocks)
    (e : EnableSharedFromThis) : Option SharedPtr × Blocks :=
  SharedPtr.fromWeakPtr bs e.weak_this

/-- Modelled from the spec: `WeakFromThis` copies the stored back-reference
(the embedded WeakPtr copy constructor). -/
def EnableSharedFromThis.WeakFromThis (bs : Blocks)
    (e : EnableSharedFromThis) : WeakPtr × Blocks :=
  (⟨e.weak_this.cb, e.weak_this.observed⟩,
    WeakPtr.IncreaseCBCounter bs e.weak_this)

/-- C8: once a payload is under shared ownership (owning handle `s` on live
block `b`), `SharedFromThis` / `WeakFromThis` return pointers referencing
that same block `b` — the set of allocated blocks is unchanged (no control
block is created "from scratch"), only `b`'s counters move. -/
theorem claim_C8 : ∀ (bs : Blocks) (s : SharedPtr) (b : Nat) (c : CB)
    (e : EnableSharedFromThis) (bs1 : Blocks),
    s.cb = some b → s.observed ≠ none → findA b bs = some c →
    c.shared_cnt ≠ 0 →
    EnableSharedFromThis.enshare bs s = (e, bs1) →
    e.weak_this = ⟨some b, s.observed⟩ ∧
    keysOf bs1 = keysOf bs ∧
    (EnableSharedFromThis.SharedFromThis bs1 e).1 = some ⟨some b, s.observed⟩ ∧
    keysOf (EnableSharedFromThis.SharedFromThis bs1 e).2 = keysOf bs ∧
    findA b (EnableSharedFromThis.SharedFromThis bs1 e).2 =
      some ⟨c.shared_cnt + 1, c.weak_cnt + 1⟩ ∧
    (EnableSharedFromThis.WeakFromThis bs1 e).1 = ⟨some b, s.observed⟩ ∧
    keysOf (EnableSharedFromThis.WeakFromThis bs1 e).2 = keysOf bs ∧
    findA b (EnableSharedFromThis.WeakFromThis bs1 e).2 =
      some ⟨c.shared_cnt, c.weak_cnt + 2⟩ := by
  intro bs s b c e bs1 hcb hobs hf hs hen
  have htb : SharedPtr.toBool s = true := by
    cases ho : s.observed
    · exact absurd ho hobs
    · simp [SharedPtr.toBool, ho]
  have hen' : EnableSharedFromThis.enshare bs s =
      (⟨⟨some b, s.observed⟩⟩, updA b ⟨c.shared_cnt, c.weak_cnt + 1⟩ bs) := by
    simp [EnableSharedFromThis.enshare, WeakPtr.fromSharedPtr, htb, hcb,
      WeakPtr.IncreaseCBCounter, incWeakB, hf]
  rw [hen'] at hen
  injection hen with he hbs1
  subst he
  subst hbs1
  have hf1 : findA b (updA b (⟨c.shared_cnt, c.weak_cnt + 1⟩ : CB) bs) =
      some ⟨c.shared_cnt, c.weak_cnt + 1⟩ := by
    simp [findA_updA_self, hf]
  refine ⟨rfl, keysOf_updA _ _ _, ?_, ?_, ?_, ?_, ?_, ?_⟩
  · simp [EnableSharedFromThis.SharedFromThis, SharedPtr.fromWeakPtr,
      WeakPtr.Expired, WeakPtr.GetCBCounter, hf1, hs]
  · simp [EnableSharedFromThis.SharedFromThis, SharedPtr.fromWeakPtr,
      WeakPtr.Expired, WeakPtr.GetCBCounter, hf1, hs,
      SharedPtr.IncreaseCBCounter, incSharedB, keysOf_updA]
  · simp [EnableSharedFromThis.SharedFromThis, SharedPtr.fromWeakPtr,
      WeakPtr.Expired, WeakPtr.GetCBCounter, hf1, hs,
      SharedPtr.IncreaseCBCounter, incSharedB, findA_updA_self]
  · rfl
  · simp [EnableSharedFromThis.WeakFromThis, WeakPtr.IncreaseCBCounter,
      incWeakB, hf1, keysOf_updA]
  · simp [EnableSharedFromThis.WeakFromThis, WeakPtr.IncreaseCBCounter,
      incWeakB, hf1, findA_updA_self]

/-- Witness for C8 on a singleton heap. -/
theorem claim_C8_witness :
    (EnableSharedFromThis.SharedFromThis [(0, (⟨1, 1⟩ : CB))]
      ⟨⟨some 0, some 5⟩⟩).1 = some ⟨some 0, some 5⟩ :=
  (claim_C8 [(0, ⟨1, 0⟩)] ⟨some 0, some 5⟩ 0 ⟨1, 0⟩ ⟨⟨some 0, some 5⟩⟩
    [(0, ⟨1, 1⟩)] rfl (by decide) rfl (by decide) (by decide)).2.2.1

----------------------------------------------------------------------------
-- Claim C1: lifecycle of one control block
----------------------------------------------------------------------------

/-- A strong/weak counter operation on one control block, as invoked by the
pointer layer. -/
inductive LOp where
  | incS
  | decS
  | incW
  | decW
deriving DecidableEq

/-- Full lifecycle state of one control block: the two counters, whether the
payload has been released, and whether `delete this` has run. -/
structure LifeSt where
  shared_cnt : Nat
  weak_cnt : Nat
  payload_dead : Bool
  freed : Bool
deriving DecidableEq

/-- Counter state at block creation (part_000 247 / 290): strong = 1, weak = 0. -/
def initLife : LifeSt := ⟨1, 0, false, false⟩

/-- One counter operation of `ControlBlockPointer` (part_000 250-271).
`DecreaseSharedCounter` releases the payload when the decremented strong
count is zero, then runs `delete this` when both counters are zero;
`DecreaseWeakCounter` runs `delete this` when the decremented weak count is
zero and the strong count already is. -/
def ControlBlockPointer.step (b : LifeSt) : LOp → LifeSt
  | .incS => ⟨b.shared_cnt + 1, b.weak_cnt, b.payload_dead, b.freed⟩
  | .decS =>
    ⟨b.shared_cnt - 1, b.weak_cnt,
      b.payload_dead || decide (b.shared_cnt - 1 = 0),
      b.freed || decide (b.weak_cnt = 0 ∧ b.shared_cnt - 1 = 0)⟩
  | .incW => ⟨b.shared_cnt, b.weak_cnt + 1, b.payload_dead, b.freed⟩
  | .decW =>
    ⟨b.shared_cnt, b.weak_cnt - 1, b.payload_dead,
      b.freed || decide (b.weak_cnt - 1 = 0 ∧ b.shared_cnt = 0)⟩

/-- `ControlBlockPointer::DecreaseSharedCounter` destroys the payload
(`delete ptr_`) exactly when the decremented strong counter reads zero. -/
def ControlBlockPointer.destroys (b : LifeSt) : LOp → Bool
  | .decS => decide (b.shared_cnt - 1 = 0)
  | _ => false

/-- One counter operation of `ControlBlockObject` (part_000 294-315); the
counter logic is that of `ControlBlockPointer`, only the payload release is
an in-place destructor call instead of `delete ptr_`. -/
def ControlBlockObject.step (b : LifeSt) : LOp → LifeSt
  | .incS => ⟨b.shared_cnt + 1, b.weak_cnt, b.payload_dead, b.freed⟩
  | .decS =>
    ⟨b.shared_cnt - 1, b.weak_cnt,
      b.payload_dead || decide (b.shared_cnt - 1 = 0),
      b.freed || decide (b.weak_cnt = 0 ∧ b.shared_cnt - 1 = 0)⟩
  | .incW => ⟨b.shared_cnt, b.weak_cnt + 1, b.payload_dead, b.freed⟩
  | .decW =>
    ⟨b.shared_cnt, b.weak_cnt - 1, b.payload_dead,
      b.freed || decide (b.weak_cnt - 1 = 0 ∧ b.shared_cnt = 0)⟩

/-- `ControlBlockObject::DecreaseSharedCounter` destroys the embedded payload
exactly when the decremented strong counter reads zero. -/
def ControlBlockObject.destroys (b : LifeSt) : LOp → Bool
  | .decS => decide (b.shared_cnt - 1 = 0)
  | _ => false

/-- The counter operations the pointer layer can issue at a given state:
nothing after `delete this`; strong increments come from copying an owning
handle or a successful promotion, so they require a live strong count;
decrements match a previously existing handle. -/
def validOp (b : LifeSt) : LOp → Bool
  | .incS => !b.freed && decide (b.shared_cnt ≠ 0)
  | .decS => !b.freed && decide (b.shared_cnt ≠ 0)
  | .incW => !b.freed
  | .decW => !b.freed && decide (b.weak_cnt ≠ 0)

/-- An interleaving of counter operations realizable through the API. -/
def validTrace (b : LifeSt) : List LOp → Bool
  | [] => true
  | op :: r => validOp b op && validTrace (ControlBlockPointer.step b op) r

def runLife (b : LifeSt) : List LOp → LifeSt
  | [] => b
  | op :: r => runLife (ControlBlockPointer.step b op) r

/-- Number of payload destructions performed along a trace. -/
def countDestroy (b : LifeSt) : List LOp → Nat
  | [] => 0
  | op :: r =>
    (if ControlBlockPointer.destroys b op then 1 else 0) +
      countDestroy (ControlBlockPointer.step b op) r

/-- Reachable-state invariant: the payload is dead exactly when the strong
count is zero, and the block is freed exactly when both counters are zero. -/
def goodLife (b : LifeSt) : Prop :=
  b.payload_dead = decide (b.shared_cnt = 0) ∧
  b.freed = decide (b.weak_cnt = 0 ∧ b.shared_cnt = 0)

theorem goodLife_step {b : LifeSt} {op : LOp} (hg : goodLife b)
    (hv : validOp b op = true) : goodLife (ControlBlockPointer.step b op) := by
  obtain ⟨hd, hf⟩ := hg
  cases op with
  | incS =>
    simp only [validOp, Bool.and_eq_true, Bool.not_eq_true',
      decide_eq_true_eq] at hv
    exact ⟨by simp [ControlBlockPointer.step, hd, hv.2],
      by simp [ControlBlockPointer.step, hf, hv.2]⟩
  | decS =>
    simp only [validOp, Bool.and_eq_true, Bool.not_eq_true',
      decide_eq_true_eq] at hv
    exact ⟨by simp [ControlBlockPointer.step, hd, hv.2],
      by simp [ControlBlockPointer.step, hf, hv.2]⟩
  | incW =>
    simp only [validOp, Bool.not_eq_true'] at hv
    exact ⟨by simpa [ControlBlockPointer.step] using hd,
      by simp [ControlBlockPointer.step, hv]⟩
  | decW =>
    simp only [validOp, Bool.and_eq_true, Bool.not_eq_true',
      decide_eq_true_eq] at hv
    exact ⟨by simpa [ControlBlockPointer.step] using hd,
      by simp [ControlBlockPointer.step, hv.1]⟩

theorem validTrace_good : ∀ (ops : List LOp) (b : LifeSt), goodLife b →
    validTrace b ops = true → goodLife (runLife b ops) := by
  intro ops
  induction ops with
  | nil =>
    intro b hg _
    exact hg
  | cons op r ih =>
    intro b hg hv
    simp only [validTrace, Bool.and_eq_true] at hv
    exact ih _ (goodLife_step hg hv.1) hv.2

theorem shared_zero_absorb : ∀ (ops : List LOp) (b : LifeSt),
    b.shared_cnt = 0 → validTrace b ops = true →
    (runLife b ops).shared_cnt = 0 ∧ countDestroy b ops = 0 := by
  intro ops
  induction ops with
  | nil =>
    intro b h0 _
    exact ⟨h0, rfl⟩
  | cons op r ih =>
    intro b h0 hv
    simp only [validTrace, Bool.and_eq_true] at hv
    cases op with
    | incS => simp [validOp, h0] at hv
    | decS => simp [validOp, h0] at hv
    | incW =>
      have := ih (ControlBlockPointer.step b .incW)
        (by simpa [ControlBlockPointer.step] using h0) hv.2
      simpa [runLife, countDestroy, ControlBlockPointer.destroys] using this
    | decW =>
      have := ih (ControlBlockPointer.step b .decW)
        (by simpa [ControlBlockPointer.step] using h0) hv.2
      simpa [runLife, countDestroy, ControlBlockPointer.destroys] using this

theorem countDestroy_char : ∀ (ops : List LOp) (b : LifeSt),
    b.shared_cnt ≠ 0 → validTrace b ops = true →
    countDestroy b ops = if (runLife b ops).shared_cnt = 0 then 1 else 0 := by
  intro ops
  induction ops with
  | nil =>
    intro b hs _
    simp [countDestroy, runLife, hs]
  | cons op r ih =>
    intro b hs hv
    simp only [validTrace, Bool.and_eq_true] at hv
    cases op with
    | incS =>
      have hsn : (ControlBlockPointer.step b .incS).shared_cnt ≠ 0 := by
        simp [ControlBlockPointer.step]
      have := ih _ hsn hv.2
      simpa [runLife, countDestroy, ControlBlockPointer.destroys] using this
    | decS =>
      by_cases h1 : b.shared_cnt - 1 = 0
      · have h0 : (ControlBlockPointer.step b .decS).shared_cnt = 0 := by
          simpa [ControlBlockPointer.step] using h1
        obtain ⟨hrs, hrc⟩ := shared_zero_absorb r _ h0 hv.2
        simp [runLife, countDestroy, ControlBlockPointer.destroys, h1, hrc, hrs]
      · have hsn : (ControlBlockPointer.step b .decS).shared_cnt ≠ 0 := by
          simpa [ControlBlockPointer.step] using h1
        have := ih _ hsn hv.2
        simpa [runLife, countDestroy, ControlBlockPointer.destroys, h1] using this
    | incW =>
      have hsn : (ControlBlockPointer.step b .incW).shared_cnt ≠ 0 := by
        simpa [ControlBlockPointer.step] using hs
      have := ih _ hsn hv.2
      simpa [runLife, countDestroy, ControlBlockPointer.destroys] using this
    | decW =>
      have hsn : (ControlBlockPointer.step b .decW).shared_cnt ≠ 0 := by
        simpa [ControlBlockPointer.step] using hs
      have := ih _ hsn hv.2
      simpa [runLife, countDestroy, ControlBlockPointer.destroys] using this

theorem validTrace_append : ∀ (l r : List LOp) (b : LifeSt),
    validTrace b (l ++ r) = true →
    validTrace b l = true ∧ validTrace (runLife b l) r = true := by
  intro l
  induction l with
  | nil =>
    intro r b h
    exact ⟨rfl, h⟩
  | cons op t ih =>
    intro r b h
    simp only [List.cons_append, validTrace, Bool.and_eq_true] at h ⊢
    obtain ⟨h1, h2⟩ := h
    obtain ⟨h3, h4⟩ := ih r _ h2
    exact ⟨⟨h1, h3⟩, by simpa [runLife] using h4⟩

/-- C1: along every realizable interleaving of counter operations from the
creation state (strong = 1, weak = 0), the payload is destroyed exactly at a
strong-count 1→0 decrement, independently of the weak count; this happens at
most once, and exactly once on any trace that ends with the block freed; at
every intermediate point the block is freed exactly when both counters read
zero, and the payload is dead exactly when the strong count is zero — so the
block outlives the payload while weak observers remain (final conjuncts: the
Combined block's transitions coincide with the Separate block's, and a
concrete trace exhibits a dead payload inside a live block). -/
theorem claim_C1 : ∀ ops : List LOp, validTrace initLife ops = true →
    (∀ pre op post, ops = pre ++ op :: post →
      (ControlBlockPointer.destroys (runLife initLife pre) op = true ↔
        (op = LOp.decS ∧ (runLife initLife pre).shared_cnt = 1))) ∧
    countDestroy initLife ops ≤ 1 ∧
    ((runLife initLife ops).freed = true → countDestroy initLife ops = 1) ∧
    (∀ pre post, ops = pre ++ post →
      ((runLife initLife pre).freed = true ↔
        ((runLife initLife pre).shared_cnt = 0 ∧
          (runLife initLife pre).weak_cnt = 0))) ∧
    (∀ pre post, ops = pre ++ post →
      ((runLife initLife pre).payload_dead = true ↔
        (runLife initLife pre).shared_cnt = 0)) ∧
    (∀ b op, ControlBlockObject.step b op = ControlBlockPointer.step b op ∧
      ControlBlockObject.destroys b op = ControlBlockPointer.destroys b op) ∧
    (∃ mid : List LOp, validTrace initLife mid = true ∧
      (runLife initLife mid).payload_dead = true ∧
      (runLife initLife mid).freed = false ∧
      (runLife initLife mid).weak_cnt ≠ 0) := by
  intro ops hv
  have hg0 : goodLife initLife := ⟨by decide, by decide⟩
  have hs0 : initLife.shared_cnt ≠ 0 := by decide
  refine ⟨?_, ?_, ?_, ?_, ?_, ?_, ?_⟩
  · intro pre op post hsplit
    subst hsplit
    obtain ⟨hpre, hrest⟩ := validTrace_append pre (op :: post) initLife hv
    simp only [validTrace, Bool.and_eq_true] at hrest
    have hop := hrest.1
    cases op with
    | incS => simp [ControlBlockPointer.destroys]
    | decS =>
      simp only [validOp, Bool.and_eq_true, Bool.not_eq_true',
        decide_eq_true_eq] at hop
      simp only [ControlBlockPointer.destroys, decide_eq_true_eq, true_and]
      omega
    | incW => simp [ControlBlockPointer.destroys]
    | decW => simp [ControlBlockPointer.destroys]
  · rw [countDestroy_char ops initLife hs0 hv]
    split <;> omega
  · intro hfr
    have hgf := validTrace_good ops initLife hg0 hv
    have hz : (runLife initLife ops).shared_cnt = 0 := by
      rw [hgf.2] at hfr
      simp only [decide_eq_true_eq] at hfr
      exact hfr.2
    rw [countDestroy_char ops initLife hs0 hv, if_pos hz]
  · intro pre post hsplit
    subst hsplit
    obtain ⟨hpre, _⟩ := validTrace_append pre post initLife hv
    have hgp := validTrace_good pre initLife hg0 hpre
    rw [hgp.2]
    simp only [decide_eq_true_eq]
    exact ⟨fun h => ⟨h.2, h.1⟩, fun h => ⟨h.2, h.1⟩⟩
  · intro pre post hsplit
    subst hsplit
    obtain ⟨hpre, _⟩ := validTrace_append pre post initLife hv
    have hgp := validTrace_good pre initLife hg0 hpre
    rw [hgp.1]
    simp only [decide_eq_true_eq]
  · intro b op
    cases op <;> exact ⟨rfl, rfl⟩
  · exact ⟨[LOp.incW, LOp.decS], by decide, by decide, by decide, by decide⟩

/-- Witness for C1: the trace weak+ / strong- / weak- destroys the payload
exactly once. -/
theorem claim_C1_witness :
    countDestroy initLife [LOp.incW, LOp.decS, LOp.decW] = 1 :=
  (claim_C1 [LOp.incW, LOp.decS, LOp.decW] (by decide)).2.2.1 (by decide)

----------------------------------------------------------------------------
-- Claim C2: strong count = number of live non-empty owning handles
----------------------------------------------------------------------------

theorem findA_some_mem_keys {α : Type} {k : Nat} {v : α} {l : List (Nat × α)}
    (h : findA k l = some v) : k ∈ keysOf l := by
  induction l with
  | nil => exact absurd h (by simp [findA])
  | cons e t ih =>
    by_cases he : e.1 = k
    · simp [keysOf, he]
    · simp only [findA, if_neg he] at h
      simp [keysOf] at ih ⊢
      exact Or.inr (ih h)

theorem mem_keys_findA {α : Type} {k : Nat} {l : List (Nat × α)}
    (h : k ∈ keysOf l) : ∃ v, findA k l = some v := by
  induction l with
  | nil => simp [keysOf] at h
  | cons e t ih =>
    by_cases he : e.1 = k
    · exact ⟨e.2, by simp [findA, he]⟩
    · simp only [keysOf, List.map_cons, List.mem_cons] at h
      rcases h with h | h
      · exact absurd h.symm he
      · simpa [findA, he] using ih h

theorem mem_findA {α : Type} {l : List (Nat × α)} (hn : (keysOf l).Nodup)
    {e : Nat × α} (he : e ∈ l) : findA e.1 l = some e.2 := by
  induction l with
  | nil => simp at he
  | cons x t ih =>
    simp only [keysOf, List.map_cons, List.nodup_cons] at hn
    rcases List.mem_cons.mp he with h | h
    · subst h
      simp [findA]
    · have hne : x.1 ≠ e.1 := by
        intro hx
        exact hn.1 (hx ▸ (List.mem_map.mpr ⟨e, h, rfl⟩))
      simp only [findA, if_neg hne]
      exact ih hn.2 h

theorem findA_delA_ne {α : Type} {k k' : Nat} (h : k' ≠ k)
    (l : List (Nat × α)) : findA k' (delA k l) = findA k' l := by
  induction l with
  | nil => rfl
  | cons e t ih =>
    by_cases he : e.1 = k
    · subst he
      simp [delA, findA, Ne.symm h]
    · simp only [delA, if_neg he, findA]
      by_cases he' : e.1 = k'
      · simp [he']
      · simp [he', ih]

theorem findA_delA_self {α : Type} {k : Nat} {l : List (Nat × α)}
    (hn : (keysOf l).Nodup) : findA k (delA k l) = none := by
  induction l with
  | nil => rfl
  | cons e t ih =>
    simp only [keysOf, List.map_cons, List.nodup_cons] at hn
    by_cases he : e.1 = k
    · subst he
      simp only [delA, if_pos rfl]
      cases hf : findA e.1 t with
      | none => exact hf
      | some v => exact absurd (findA_some_mem_keys hf) hn.1
    · simp only [delA, if_neg he, findA, if_neg he]
      exact ih hn.2

theorem mem_keysOf_delA {α : Type} {k k' : Nat} {l : List (Nat × α)}
    (h : k' ∈ keysOf l) (hne : k' ≠ k) : k' ∈ keysOf (delA k l) := by
  induction l with
  | nil => simp [keysOf] at h
  | cons e t ih =>
    simp only [keysOf, List.map_cons, List.mem_cons] at h
    by_cases he : e.1 = k
    · simp only [delA, if_pos he]
      rcases h with h | h
      · exact absurd (h ▸ he) hne
      · exact h
    · simp only [delA, if_neg he, keysOf, List.map_cons, List.mem_cons]
      rcases h with h | h
      · exact Or.inl h
      · exact Or.inr (ih h)

theorem keysOf_delA_mem {α : Type} {k k' : Nat} {l : List (Nat × α)}
    (h : k' ∈ keysOf (delA k l)) : k' ∈ keysOf l := by
  induction l with
  | nil => simpa [delA] using h
  | cons e t ih =>
    by_cases he : e.1 = k
    · simp only [delA, if_pos he] at h
      simp only [keysOf, List.map_cons, List.mem_cons]
      exact Or.inr h
    · simp only [delA, if_neg he, keysOf, List.map_cons, List.mem_cons] at h ⊢
      rcases h with h | h
      · exact Or.inl h
      · exact Or.inr (ih h)

theorem nodup_keysOf_delA {α : Type} {k : Nat} {l : List (Nat × α)}
    (hn : (keysOf l).Nodup) : (keysOf (delA k l)).Nodup := by
  induction l with
  | nil => simpa [delA] using hn
  | cons e t ih =>
    simp only [keysOf, List.map_cons, List.nodup_cons] at hn
    by_cases he : e.1 = k
    · simpa [delA, he] using hn.2
    · simp only [delA, if_neg he, keysOf, List.map_cons, List.nodup_cons]
      refine ⟨fun hmem => hn.1 (keysOf_delA_mem hmem), ih hn.2⟩

theorem updA_updA {α : Type} (k : Nat) (v v' : α) (l : List (Nat × α)) :
    updA k v (updA k v' l) = updA k v l := by
  induction l with
  | nil => rfl
  | cons e t ih =>
    by_cases he : e.1 = k
    · simp [updA, he]
    · simp [updA, he, ih]

/-- 1 if handle `p` references block `b`, else 0. -/
def refInd (b : Nat) (p : SharedPtr) : Nat := if p.cb = some b then 1 else 0

/-- Number of handles in the list referencing block `b`. -/
def countRef (b : Nat) : List (Nat × SharedPtr) → Nat
  | [] => 0
  | e :: t => refInd b e.2 + countRef b t

theorem countRef_updA (p : SharedPtr) {b k : Nat} {p0 : SharedPtr}
    {l : List (Nat × SharedPtr)} (h : findA k l = some p0) :
    countRef b (updA k p l) + refInd b p0 = countRef b l + refInd b p := by
  induction l with
  | nil => exact absurd h (by simp [findA])
  | cons e t ih =>
    by_cases he : e.1 = k
    · simp only [findA, if_pos he, Option.some.injEq] at h
      subst h
      simp only [updA, if_pos he, countRef]
      omega
    · simp only [findA, if_neg he] at h
      simp only [updA, if_neg he, countRef]
      have := ih h
      omega

theorem countRef_delA {b k : Nat} {p0 : SharedPtr}
    {l : List (Nat × SharedPtr)} (h : findA k l = some p0) :
    countRef b (delA k l) + refInd b p0 = countRef b l := by
  induction l with
  | nil => exact absurd h (by simp [findA])
  | cons e t ih =>
    by_cases he : e.1 = k
    · simp only [findA, if_pos he, Option.some.injEq] at h
      subst h
      simp only [delA, if_pos he, countRef]
      omega
    · simp only [findA, if_neg he] at h
      simp only [delA, if_neg he, countRef]
      have := ih h
      omega

theorem findA_countRef_pos {b k : Nat} {p : SharedPtr}
    {l : List (Nat × SharedPtr)} (h : findA k l = some p)
    (hb : p.cb = some b) : 1 ≤ countRef b l := by
  induction l with
  | nil => exact absurd h (by simp [findA])
  | cons e t ih =>
    by_cases he : e.1 = k
    · simp only [findA, if_pos he, Option.some.injEq] at h
      subst h
      simp [countRef, refInd, hb]
    · simp only [findA, if_neg he] at h
      have := ih h
      simp only [countRef]
      omega

theorem countRef_pos_ex {b : Nat} {l : List (Nat × SharedPtr)}
    (h : countRef b l ≠ 0) : ∃ e ∈ l, e.2.cb = some b := by
  induction l with
  | nil => simp [countRef] at h
  | cons e t ih =>
    by_cases hb : e.2.cb = some b
    · exact ⟨e, List.mem_cons_self e t, hb⟩
    · simp only [countRef, refInd, if_neg hb, Nat.zero_add] at h
      obtain ⟨x, hx, hxb⟩ := ih h
      exact ⟨x, List.mem_cons_of_mem e hx, hxb⟩

/-- The heap-vs-handles part of the C2 invariant: block keys are distinct,
every referenced block is allocated, and each allocated block's strong count
equals the number of handles referencing it (with the weak count 0, since
the SharedPtr operation set never touches it). -/
def InvL (bs : Blocks) (hs : List (Nat × SharedPtr)) : Prop :=
  (keysOf bs).Nodup ∧
  (∀ h p b, findA h hs = some p → p.cb = some b → b ∈ keysOf bs) ∧
  (∀ b c, findA b bs = some c → c.shared_cnt = countRef b hs ∧ c.weak_cnt = 0)

/-- Master lemma: `DecreaseCBCounter` through a handle `p` re-establishes the
heap invariant against any handle list holding exactly one reference through
`p` less. -/
theorem decCB_invL {bs : Blocks} {hs0 hs1 : List (Nat × SharedPtr)}
    {p : SharedPtr} (hi : InvL bs hs0)
    (hcnt : ∀ b, countRef b hs1 + refInd b p = countRef b hs0)
    (href : ∀ h q b, findA h hs1 = some q → q.cb = some b → b ∈ keysOf bs) :
    InvL (SharedPtr.DecreaseCBCounter bs p) hs1 := by
  obtain ⟨hbn, hre, hct⟩ := hi
  cases hp : p.cb with
  | none =>
    simp only [SharedPtr.DecreaseCBCounter, hp]
    refine ⟨hbn, href, ?_⟩
    intro b c hf
    have hc := hct b c hf
    have hharm := hcnt b
    simp [refInd, hp] at hharm
    exact ⟨by omega, hc.2⟩
  | some bd =>
    simp only [SharedPtr.DecreaseCBCounter, hp]
    cases hfd : findA bd bs with
    | none =>
      simp only [decSharedB, hfd]
      refine ⟨hbn, href, ?_⟩
      intro b c hf
      have hne : b ≠ bd := by
        intro hbd
        rw [hbd, hfd] at hf
        exact absurd hf (by simp)
      have hc := hct b c hf
      have hharm := hcnt b
      simp only [refInd, hp] at hharm
      rw [if_neg (fun h => hne (Option.some.inj h).symm)] at hharm
      exact ⟨by omega, hc.2⟩
    | some c =>
      have hcd := hct bd c hfd
      have hcnt_bd := hcnt bd
      simp [refInd, hp] at hcnt_bd
      simp only [decSharedB, hfd]
      by_cases hdel : c.weak_cnt = 0 ∧ c.shared_cnt - 1 = 0
      · rw [if_pos hdel]
        have hz : countRef bd hs1 = 0 := by omega
        refine ⟨nodup_keysOf_delA hbn, ?_, ?_⟩
        · intro h q b hf hq
          have hb := href h q b hf hq
          have hbne : b ≠ bd := by
            intro hbd
            subst hbd
            have := findA_countRef_pos hf hq
            omega
          exact mem_keysOf_delA hb hbne
        · intro b c' hf
          have hbne : b ≠ bd := by
            intro hbd
            subst hbd
            rw [findA_delA_self hbn] at hf
            exact absurd hf (by simp)
          rw [findA_delA_ne hbne] at hf
          have hc := hct b c' hf
          have hharm := hcnt b
          simp only [refInd, hp] at hharm
          rw [if_neg (fun h => hbne (Option.some.inj h).symm)] at hharm
          exact ⟨by omega, hc.2⟩
      · rw [if_neg hdel]
        refine ⟨by rw [keysOf_updA]; exact hbn, ?_, ?_⟩
        · intro h q b hf hq
          rw [keysOf_updA]
          exact href h q b hf hq
        · intro b c' hf
          by_cases hbd : b = bd
          · subst hbd
            rw [findA_updA_self, hfd] at hf
            have hf' : (⟨c.shared_cnt - 1, c.weak_cnt⟩ : CB) = c' :=
              Option.some.inj hf
            subst hf'
            refine ⟨?_, hcd.2⟩
            show c.shared_cnt - 1 = countRef b hs1
            omega
          · rw [findA_updA_ne hbd] at hf
            have hc := hct b c' hf
            have hharm := hcnt b
            simp only [refInd, hp] at hharm
            rw [if_neg (fun h => hbd (Option.some.inj h).symm)] at hharm
            exact ⟨by omega, hc.2⟩

/-- Master lemma: a block present in the heap and still referenced after the
handle-side change survives `DecreaseCBCounter`. -/
theorem decCB_keys_mem {bs : Blocks} {hs0 hs1 : List (Nat × SharedPtr)}
    {p : SharedPtr} (hi : InvL bs hs0)
    (hcnt : ∀ b, countRef b hs1 + refInd b p = countRef b hs0)
    {b : Nat} (hb : b ∈ keysOf bs) (hpos : 1 ≤ countRef b hs1) :
    b ∈ keysOf (SharedPtr.DecreaseCBCounter bs p) := by
  obtain ⟨hbn, hre, hct⟩ := hi
  cases hp : p.cb with
  | none => simpa [SharedPtr.DecreaseCBCounter, hp] using hb
  | some bd =>
    simp only [SharedPtr.DecreaseCBCounter, hp]
    cases hfd : findA bd bs with
    | none => simpa [decSharedB, hfd] using hb
    | some c =>
      simp only [decSharedB, hfd]
      by_cases hdel : c.weak_cnt = 0 ∧ c.shared_cnt - 1 = 0
      · rw [if_pos hdel]
        have hcd := hct bd c hfd
        have hcnt_bd := hcnt bd
        simp [refInd, hp] at hcnt_bd
        have hbne : b ≠ bd := by
          intro hbd
          subst hbd
          omega
        exact mem_keysOf_delA hb hbne
      · rw [if_neg hdel, keysOf_updA]
        exact hb

/-- Master lemma: `IncreaseCBCounter` through a handle `q` re-establishes the
heap invariant against any handle list holding exactly one reference through
`q` more. -/
theorem incCB_invL {bs : Blocks} {hs0 hs1 : List (Nat × SharedPtr)}
    {q : SharedPtr} (hi : InvL bs hs0)
    (hcnt : ∀ b, countRef b hs1 = countRef b hs0 + refInd b q)
    (href : ∀ h p b, findA h hs1 = some p → p.cb = some b → b ∈ keysOf bs) :
    InvL (SharedPtr.IncreaseCBCounter bs q) hs1 := by
  obtain ⟨hbn, hre, hct⟩ := hi
  cases hq : q.cb with
  | none =>
    simp only [SharedPtr.IncreaseCBCounter, hq]
    refine ⟨hbn, href, ?_⟩
    intro b c hf
    have hc := hct b c hf
    have hharm := hcnt b
    simp [refInd, hq] at hharm
    exact ⟨by omega, hc.2⟩
  | some bq =>
    simp only [SharedPtr.IncreaseCBCounter, hq]
    cases hfq : findA bq bs with
    | none =>
      simp only [incSharedB, hfq]
      refine ⟨hbn, href, ?_⟩
      intro b c hf
      have hne : b ≠ bq := by
        intro hbq
        rw [hbq, hfq] at hf
        exact absurd hf (by simp)
      have hc := hct b c hf
      have hharm := hcnt b
      simp only [refInd, hq] at hharm
      rw [if_neg (fun h => hne (Option.some.inj h).symm)] at hharm
      exact ⟨by omega, hc.2⟩
    | some c =>
      simp only [incSharedB, hfq]
      refine ⟨by rw [keysOf_updA]; exact hbn, ?_, ?_⟩
      · intro h p b hf hp
        rw [keysOf_updA]
        exact href h p b hf hp
      · intro b c' hf
        by_cases hbq : b = bq
        · subst hbq
          rw [findA_updA_self, hfq] at hf
          have hf' : (⟨c.shared_cnt + 1, c.weak_cnt⟩ : CB) = c' :=
            Option.some.inj hf
          subst hf'
          have hc := hct b c hfq
          have hharm := hcnt b
          simp [refInd, hq] at hharm
          refine ⟨?_, hc.2⟩
          show c.shared_cnt + 1 = countRef b hs1
          omega
        · rw [findA_updA_ne hbq] at hf
          have hc := hct b c' hf
          have hharm := hcnt b
          simp only [refInd, hq] at hharm
          rw [if_neg (fun h => hbq (Option.some.inj h).symm)] at hharm
          exact ⟨by omega, hc.2⟩

theorem fresh_countRef {bs : Blocks} {hs : List (Nat × SharedPtr)} {n : Nat}
    (hi : InvL bs hs) (hn : (keysOf hs).Nodup)
    (hlt : ∀ k ∈ keysOf bs, k < n) : countRef n hs = 0 := by
  by_contra h
  obtain ⟨e, he, heb⟩ := countRef_pos_ex h
  have := hi.2.1 e.1 e.2 n (mem_findA hn he) heb
  exact absurd (hlt n this) (by omega)

theorem keysOf_incCB (bs : Blocks) (q : SharedPtr) :
    keysOf (SharedPtr.IncreaseCBCounter bs q) = keysOf bs := by
  cases hq : q.cb with
  | none => simp [SharedPtr.IncreaseCBCounter, hq]
  | some bq =>
    simp only [SharedPtr.IncreaseCBCounter, hq]
    cases hf : findA bq bs with
    | none => simp [incSharedB, hf]
    | some c => simp [incSharedB, hf, keysOf_updA]

theorem mem_keysOf_decCB {bs : Blocks} {p : SharedPtr} {k : Nat}
    (h : k ∈ keysOf (SharedPtr.DecreaseCBCounter bs p)) : k ∈ keysOf bs := by
  cases hp : p.cb with
  | none => simpa [SharedPtr.DecreaseCBCounter, hp] using h
  | some bd =>
    simp only [SharedPtr.DecreaseCBCounter, hp] at h
    cases hf : findA bd bs with
    | none => simpa [decSharedB, hf] using h
    | some c =>
      simp only [decSharedB, hf] at h
      by_cases hdel : c.weak_cnt = 0 ∧ c.shared_cnt - 1 = 0
      · rw [if_pos hdel] at h
        exact keysOf_delA_mem h
      · rw [if_neg hdel, keysOf_updA] at h
        exact h

theorem fresh_not_mem {L : List Nat} {n : Nat} (h : ∀ k ∈ L, k < n) :
    n ∉ L :=
  fun hm => absurd (h n hm) (Nat.lt_irrefl n)

/-- The mutable world of claim C2: the heap of live control blocks, the set
of live `SharedPtr` handles (keyed by identity), and fresh-identity counters
modelling `new`. -/
structure World where
  blocks : Blocks
  handles : List (Nat × SharedPtr)
  nextB : Nat
  nextH : Nat

/-- The `SharedPtr` operations of claim C2.  Handle arguments name existing
handles by key; an operation naming a dead handle is a no-op. -/
inductive SOp where
  | fromRaw (addr : Option Nat)
  | makeShared (addr : Nat)
  | copyCon (src : Nat)
  | moveCon (src : Nat)
  | copyAssign (dst src : Nat)
  | moveAssign (dst src : Nat)
  | reset (h : Nat)
  | resetPtr (h : Nat) (addr : Option Nat)
  | destroy (h : Nat)
deriving DecidableEq

/-- One `SharedPtr` operation on the world, each translated from part_000:
raw adoption and `MakeShared` allocate a fresh strong=1 block; copy
construction shares and increments; move construction transfers and empties
the source; assignment releases the target's old block first (after the
`this == &other` self-test), then re-points (copy: increments, move: empties
the source); `Reset` releases and either empties or adopts a fresh block;
destruction releases and removes the handle. -/
def stepS (w : World) : SOp → World
  | .fromRaw addr =>
    ⟨(w.nextB, ⟨1, 0⟩) :: w.blocks,
      (w.nextH, ⟨some w.nextB, addr⟩) :: w.handles,
      w.nextB + 1, w.nextH + 1⟩
  | .makeShared addr =>
    ⟨(w.nextB, ⟨1, 0⟩) :: w.blocks,
      (w.nextH, ⟨some w.nextB, some addr⟩) :: w.handles,
      w.nextB + 1, w.nextH + 1⟩
  | .copyCon src =>
    match findA src w.handles with
    | none => w
    | some p =>
      ⟨SharedPtr.IncreaseCBCounter w.blocks p,
        (w.nextH, p) :: w.handles, w.nextB, w.nextH + 1⟩
  | .moveCon src =>
    match findA src w.handles with
    | none => w
    | some p =>
      ⟨w.blocks, (w.nextH, p) :: updA src emptyS w.handles,
        w.nextB, w.nextH + 1⟩
  | .copyAssign dst src =>
    if dst = src then w
    else
      match findA dst w.handles, findA src w.handles with
      | some pd, some ps =>
        ⟨SharedPtr.IncreaseCBCounter (SharedPtr.DecreaseCBCounter w.blocks pd) ps,
          updA dst ps w.handles, w.nextB, w.nextH⟩
      | _, _ => w
  | .moveAssign dst src =>
    if dst = src then w
    else
      match findA dst w.handles, findA src w.handles with
      | some pd, some ps =>
        ⟨SharedPtr.DecreaseCBCounter w.blocks pd,
          updA dst ps (updA src emptyS w.handles), w.nextB, w.nextH⟩
      | _, _ => w
  | .reset h =>
    match findA h w.handles with
    | none => w
    | some p =>
      ⟨SharedPtr.DecreaseCBCounter w.blocks p,
        updA h emptyS w.handles, w.nextB, w.nextH⟩
  | .resetPtr h addr =>
    match findA h w.handles with
    | none => w
    | some p =>
      ⟨(w.nextB, ⟨1, 0⟩) :: SharedPtr.DecreaseCBCounter w.blocks p,
        updA h ⟨some w.nextB, addr⟩ w.handles, w.nextB + 1, w.nextH⟩
  | .destroy h =>
    match findA h w.handles with
    | none => w
    | some p =>
      ⟨SharedPtr.DecreaseCBCounter w.blocks p,
        delA h w.handles, w.nextB, w.nextH⟩

def runS (w : World) : List SOp → World
  | [] => w
  | op :: r => runS (stepS w op) r

/-- The world before any operation. -/
def initW : World := ⟨[], [], 0, 0⟩

/-- The full C2 invariant: distinct live-handle keys, fresh-counter bounds,
and the heap-vs-handles invariant `InvL`. -/
structure Inv (w : World) : Prop where
  hnd : (keysOf w.handles).Nodup
  hlt : ∀ k ∈ keysOf w.handles, k < w.nextH
  blt : ∀ k ∈ keysOf w.blocks, k < w.nextB
  invL : InvL w.blocks w.handles

theorem inv_newBlock {w : World} (hi : Inv w) (obs : Option Nat) :
    Inv ⟨(w.nextB, ⟨1, 0⟩) :: w.blocks,
      (w.nextH, ⟨some w.nextB, obs⟩) :: w.handles,
      w.nextB + 1, w.nextH + 1⟩ := by
  obtain ⟨hhn, hhlt, hblt, hL⟩ := hi
  obtain ⟨hbn, hre, hct⟩ := hL
  refine ⟨?_, ?_, ?_, ?_, ?_, ?_⟩
  · exact List.nodup_cons.mpr ⟨fresh_not_mem hhlt, hhn⟩
  · intro k hk
    show k < w.nextH + 1
    rcases List.mem_cons.mp hk with h | h
    · omega
    · have := hhlt k h
      omega
  · intro k hk
    show k < w.nextB + 1
    rcases List.mem_cons.mp hk with h | h
    · omega
    · have := hblt k h
      omega
  · exact List.nodup_cons.mpr ⟨fresh_not_mem hblt, hbn⟩
  · intro h p b hf hb
    simp only [findA] at hf
    by_cases hh : w.nextH = h
    · rw [if_pos hh] at hf
      injection hf with hf
      subst hf
      have hbb : w.nextB = b := Option.some.inj hb
      subst hbb
      exact List.mem_cons_self _ _
    · rw [if_neg hh] at hf
      exact List.mem_cons_of_mem _ (hre h p b hf hb)
  · intro b c hf
    simp only [findA] at hf
    by_cases hbb : w.nextB = b
    · rw [if_pos hbb] at hf
      injection hf with hf
      subst hf
      subst hbb
      refine ⟨?_, rfl⟩
      have h0 : countRef w.nextB w.handles = 0 :=
        fresh_countRef ⟨hbn, hre, hct⟩ hhn hblt
      show 1 = refInd w.nextB ⟨some w.nextB, obs⟩ + countRef w.nextB w.handles
      simp [refInd, h0]
    · rw [if_neg hbb] at hf
      have hc := hct b c hf
      refine ⟨?_, hc.2⟩
      have hr0 : refInd b (⟨some w.nextB, obs⟩ : SharedPtr) = 0 := by
        simp only [refInd, Option.some.injEq]
        rw [if_neg hbb]
      show c.shared_cnt =
        refInd b ⟨some w.nextB, obs⟩ + countRef b w.handles
      omega

theorem inv_copyCon {w : World} (hi : Inv w) {src : Nat} {p : SharedPtr}
    (hf : findA src w.handles = some p) :
    Inv ⟨SharedPtr.IncreaseCBCounter w.blocks p,
      (w.nextH, p) :: w.handles, w.nextB, w.nextH + 1⟩ := by
  obtain ⟨hhn, hhlt, hblt, hL⟩ := hi
  refine ⟨List.nodup_cons.mpr ⟨fresh_not_mem hhlt, hhn⟩, ?_, ?_, ?_⟩
  · intro k hk
    show k < w.nextH + 1
    rcases List.mem_cons.mp hk with h | h
    · omega
    · have := hhlt k h
      omega
  · intro k hk
    rw [keysOf_incCB] at hk
    exact hblt k hk
  · apply incCB_invL hL
    · intro b
      show refInd b p + countRef b w.handles = countRef b w.handles + refInd b p
      omega
    · intro h q b hfq hqb
      simp only [findA] at hfq
      by_cases hh : w.nextH = h
      · rw [if_pos hh] at hfq
        injection hfq with hfq
        subst hfq
        exact hL.2.1 src p b hf hqb
      · rw [if_neg hh] at hfq
        exact hL.2.1 h q b hfq hqb

theorem inv_moveCon {w : World} (hi : Inv w) {src : Nat} {p : SharedPtr}
    (hf : findA src w.handles = some p) :
    Inv ⟨w.blocks, (w.nextH, p) :: updA src emptyS w.handles,
      w.nextB, w.nextH + 1⟩ := by
  obtain ⟨hhn, hhlt, hblt, hL⟩ := hi
  obtain ⟨hbn, hre, hct⟩ := hL
  have hkeys : keysOf ((w.nextH, p) :: updA src emptyS w.handles) =
      w.nextH :: keysOf w.handles := by
    show w.nextH :: keysOf (updA src emptyS w.handles) = _
    rw [keysOf_updA]
  refine ⟨?_, ?_, hblt, hbn, ?_, ?_⟩
  · rw [hkeys]
    exact List.nodup_cons.mpr ⟨fresh_not_mem hhlt, hhn⟩
  · intro k hk
    show k < w.nextH + 1
    rw [hkeys] at hk
    rcases List.mem_cons.mp hk with h | h
    · omega
    · have := hhlt k h
      omega
  · intro h q b hfq hqb
    simp only [findA] at hfq
    by_cases hh : w.nextH = h
    · rw [if_pos hh] at hfq
      injection hfq with hfq
      subst hfq
      exact hre src p b hf hqb
    · rw [if_neg hh] at hfq
      by_cases hsh : h = src
      · subst hsh
        rw [findA_updA_self, hf] at hfq
        have hq := Option.some.inj hfq
        subst hq
        exact absurd hqb (by simp [emptyS])
      · rw [findA_updA_ne hsh] at hfq
        exact hre h q b hfq hqb
  · intro b c hfc
    have hc := hct b c hfc
    refine ⟨?_, hc.2⟩
    have hu : countRef b (updA src emptyS w.handles) + refInd b p =
        countRef b w.handles + refInd b emptyS := countRef_updA emptyS hf
    have he0 : refInd b emptyS = 0 := by simp [refInd, emptyS]
    show c.shared_cnt = refInd b p + countRef b (updA src emptyS w.handles)
    omega

theorem inv_copyAssign {w : World} (hi : Inv w) {dst src : Nat}
    (hne : dst ≠ src) {pd ps : SharedPtr}
    (hfd : findA dst w.handles = some pd)
    (hfs : findA src w.handles = some ps) :
    Inv ⟨SharedPtr.IncreaseCBCounter
        (SharedPtr.DecreaseCBCounter w.blocks pd) ps,
      updA dst ps w.handles, w.nextB, w.nextH⟩ := by
  obtain ⟨hhn, hhlt, hblt, hL⟩ := hi
  have hmid : findA dst (updA dst emptyS w.handles) = some emptyS := by
    rw [findA_updA_self, hfd]
    rfl
  have hsrcmid : findA src (updA dst emptyS w.handles) = some ps := by
    rw [findA_updA_ne (fun h => hne h.symm)]
    exact hfs
  have hc1 : ∀ b, countRef b (updA dst emptyS w.handles) + refInd b pd =
      countRef b w.handles := by
    intro b
    have hu : countRef b (updA dst emptyS w.handles) + refInd b pd =
        countRef b w.handles + refInd b emptyS := countRef_updA emptyS hfd
    have he0 : refInd b emptyS = 0 := by simp [refInd, emptyS]
    omega
  have hrefmid : ∀ h q b, findA h (updA dst emptyS w.handles) = some q →
      q.cb = some b → b ∈ keysOf w.blocks := by
    intro h q b hfq hqb
    by_cases hh : h = dst
    · subst hh
      rw [hmid] at hfq
      have hq := Option.some.inj hfq
      subst hq
      exact absurd hqb (by simp [emptyS])
    · rw [findA_updA_ne hh] at hfq
      exact hL.2.1 h q b hfq hqb
  have hInvMid := decCB_invL hL hc1 hrefmid
  have hcoll : updA dst ps (updA dst emptyS w.handles) =
      updA dst ps w.handles := updA_updA dst ps emptyS w.handles
  have hc2 : ∀ b, countRef b (updA dst ps w.handles) =
      countRef b (updA dst emptyS w.handles) + refInd b ps := by
    intro b
    have hu : countRef b (updA dst ps (updA dst emptyS w.handles)) +
        refInd b emptyS = countRef b (updA dst emptyS w.handles) +
        refInd b ps := countRef_updA ps hmid
    rw [hcoll] at hu
    have he0 : refInd b emptyS = 0 := by simp [refInd, emptyS]
    omega
  have href2 : ∀ h q b, findA h (updA dst ps w.handles) = some q →
      q.cb = some b →
      b ∈ keysOf (SharedPtr.DecreaseCBCounter w.blocks pd) := by
    intro h q b hfq hqb
    by_cases hh : h = dst
    · rw [hh] at hfq
      rw [findA_updA_self, hfd] at hfq
      have hq := Option.some.inj hfq
      subst hq
      have hpos : 1 ≤ countRef b (updA dst emptyS w.handles) :=
        findA_countRef_pos hsrcmid hqb
      exact decCB_keys_mem hL hc1 (hL.2.1 src ps b hfs hqb) hpos
    · rw [findA_updA_ne hh] at hfq
      have hfq' : findA h (updA dst emptyS w.handles) = some q := by
        rw [findA_updA_ne hh]
        exact hfq
      exact decCB_keys_mem hL hc1 (hL.2.1 h q b hfq hqb)
        (findA_countRef_pos hfq' hqb)
  refine ⟨?_, ?_, ?_, incCB_invL hInvMid hc2 href2⟩
  · rw [keysOf_updA]
    exact hhn
  · intro k hk
    rw [keysOf_updA] at hk
    exact hhlt k hk
  · intro k hk
    rw [keysOf_incCB] at hk
    exact hblt k (mem_keysOf_decCB hk)

theorem inv_moveAssign {w : World} (hi : Inv w) {dst src : Nat}
    (hne : dst ≠ src) {pd ps : SharedPtr}
    (hfd : findA dst w.handles = some pd)
    (hfs : findA src w.handles = some ps) :
    Inv ⟨SharedPtr.DecreaseCBCounter w.blocks pd,
      updA dst ps (updA src emptyS w.handles), w.nextB, w.nextH⟩ := by
  obtain ⟨hhn, hhlt, hblt, hL⟩ := hi
  have hfdA : findA dst (updA src emptyS w.handles) = some pd := by
    rw [findA_updA_ne hne]
    exact hfd
  have hcA : ∀ b, countRef b (updA src emptyS w.handles) + refInd b ps =
      countRef b w.handles := by
    intro b
    have hu : countRef b (updA src emptyS w.handles) + refInd b ps =
        countRef b w.handles + refInd b emptyS := countRef_updA emptyS hfs
    have he0 : refInd b emptyS = 0 := by simp [refInd, emptyS]
    omega
  have hc2 : ∀ b, countRef b (updA dst ps (updA src emptyS w.handles)) +
      refInd b pd = countRef b w.handles := by
    intro b
    have h1 : countRef b (updA dst ps (updA src emptyS w.handles)) +
        refInd b pd = countRef b (updA src emptyS w.handles) +
        refInd b ps := countRef_updA ps hfdA
    have h2 := hcA b
    omega
  have href : ∀ h q b,
      findA h (updA dst ps (updA src emptyS w.handles)) = some q →
      q.cb = some b → b ∈ keysOf w.blocks := by
    intro h q b hfq hqb
    by_cases hh : h = dst
    · rw [hh] at hfq
      rw [findA_updA_self, hfdA] at hfq
      have hq := Option.some.inj hfq
      subst hq
      exact hL.2.1 src ps b hfs hqb
    · rw [findA_updA_ne hh] at hfq
      by_cases hsh : h = src
      · subst hsh
        rw [findA_updA_self, hfs] at hfq
        have hq := Option.some.inj hfq
        subst hq
        exact absurd hqb (by simp [emptyS])
      · rw [findA_updA_ne hsh] at hfq
        exact hL.2.1 h q b hfq hqb
  refine ⟨?_, ?_, ?_, decCB_invL hL hc2 href⟩
  · rw [keysOf_updA, keysOf_updA]
    exact hhn
  · intro k hk
    rw [keysOf_updA, keysOf_updA] at hk
    exact hhlt k hk
  · intro k hk
    exact hblt k (mem_keysOf_decCB hk)

theorem inv_reset {w : World} (hi : Inv w) {h0 : Nat} {p : SharedPtr}
    (hf : findA h0 w.handles = some p) :
    Inv ⟨SharedPtr.DecreaseCBCounter w.blocks p,
      updA h0 emptyS w.handles, w.nextB, w.nextH⟩ := by
  obtain ⟨hhn, hhlt, hblt, hL⟩ := hi
  have hc : ∀ b, countRef b (updA h0 emptyS w.handles) + refInd b p =
      countRef b w.handles := by
    intro b
    have hu : countRef b (updA h0 emptyS w.handles) + refInd b p =
        countRef b w.handles + refInd b emptyS := countRef_updA emptyS hf
    have he0 : refInd b emptyS = 0 := by simp [refInd, emptyS]
    omega
  have href : ∀ h q b, findA h (updA h0 emptyS w.handles) = some q →
      q.cb = some b → b ∈ keysOf w.blocks := by
    intro h q b hfq hqb
    by_cases hh : h = h0
    · subst hh
      rw [findA_updA_self, hf] at hfq
      have hq := Option.some.inj hfq
      subst hq
      exact absurd hqb (by simp [emptyS])
    · rw [findA_updA_ne hh] at hfq
      exact hL.2.1 h q b hfq hqb
  refine ⟨?_, ?_, ?_, decCB_invL hL hc href⟩
  · rw [keysOf_updA]
    exact hhn
  · intro k hk
    rw [keysOf_updA] at hk
    exact hhlt k hk
  · intro k hk
    exact hblt k (mem_keysOf_decCB hk)

theorem inv_resetPtr {w : World} (hi : Inv w) {h0 : Nat} {p : SharedPtr}
    (hf : findA h0 w.handles = some p) (addr : Option Nat) :
    Inv ⟨(w.nextB, ⟨1, 0⟩) :: SharedPtr.DecreaseCBCounter w.blocks p,
      updA h0 ⟨some w.nextB, addr⟩ w.handles, w.nextB + 1, w.nextH⟩ := by
  obtain ⟨hhn, hhlt, hblt, hL⟩ := hi
  have hmid : findA h0 (updA h0 emptyS w.handles) = some emptyS := by
    rw [findA_updA_self, hf]
    rfl
  have hc1 : ∀ b, countRef b (updA h0 emptyS w.handles) + refInd b p =
      countRef b w.handles := by
    intro b
    have hu : countRef b (updA h0 emptyS w.handles) + refInd b p =
        countRef b w.handles + refInd b emptyS := countRef_updA emptyS hf
    have he0 : refInd b emptyS = 0 := by simp [refInd, emptyS]
    omega
  have hrefmid : ∀ h q b, findA h (updA h0 emptyS w.handles) = some q →
      q.cb = some b → b ∈ keysOf w.blocks := by
    intro h q b hfq hqb
    by_cases hh : h = h0
    · subst hh
      rw [hmid] at hfq
      have hq := Option.some.inj hfq
      subst hq
      exact absurd hqb (by simp [emptyS])
    · rw [findA_updA_ne hh] at hfq
      exact hL.2.1 h q b hfq hqb
  have hInvMid := decCB_invL hL hc1 hrefmid
  have hcoll : updA h0 (⟨some w.nextB, addr⟩ : SharedPtr)
      (updA h0 emptyS w.handles) = updA h0 ⟨some w.nextB, addr⟩ w.handles :=
    updA_updA h0 ⟨some w.nextB, addr⟩ emptyS w.handles
  have hhn' : (keysOf (updA h0 emptyS w.handles)).Nodup := by
    rw [keysOf_updA]
    exact hhn
  have hbltMid : ∀ k ∈ keysOf (SharedPtr.DecreaseCBCounter w.blocks p),
      k < w.nextB := fun k hk => hblt k (mem_keysOf_decCB hk)
  have hfresh : countRef w.nextB (updA h0 emptyS w.handles) = 0 :=
    fresh_countRef hInvMid hhn' hbltMid
  refine ⟨?_, ?_, ?_, ?_, ?_, ?_⟩
  · rw [keysOf_updA]
    exact hhn
  · intro k hk
    rw [keysOf_updA] at hk
    exact hhlt k hk
  · intro k hk
    show k < w.nextB + 1
    rcases List.mem_cons.mp hk with h | h
    · omega
    · have := hbltMid k h
      omega
  · exact List.nodup_cons.mpr ⟨fresh_not_mem hbltMid, hInvMid.1⟩
  · intro h q b hfq hqb
    by_cases hh : h = h0
    · subst hh
      rw [findA_updA_self, hf] at hfq
      have hq := Option.some.inj hfq
      subst hq
      have hbb : w.nextB = b := Option.some.inj hqb
      subst hbb
      exact List.mem_cons_self _ _
    · rw [findA_updA_ne hh] at hfq
      have hfq' : findA h (updA h0 emptyS w.handles) = some q := by
        rw [findA_updA_ne hh]
        exact hfq
      exact List.mem_cons_of_mem _ (hInvMid.2.1 h q b hfq' hqb)
  · intro b c hfc
    simp only [findA] at hfc
    by_cases hbb : w.nextB = b
    · rw [if_pos hbb] at hfc
      injection hfc with hfc
      subst hfc
      subst hbb
      refine ⟨?_, rfl⟩
      have hcu : countRef w.nextB (updA h0 (⟨some w.nextB, addr⟩ : SharedPtr)
          (updA h0 emptyS w.handles)) + refInd w.nextB emptyS =
          countRef w.nextB (updA h0 emptyS w.handles) +
          refInd w.nextB (⟨some w.nextB, addr⟩ : SharedPtr) :=
        countRef_updA ⟨some w.nextB, addr⟩ hmid
      rw [hcoll] at hcu
      have he0 : refInd w.nextB emptyS = 0 := by simp [refInd, emptyS]
      have hr1 : refInd w.nextB (⟨some w.nextB, addr⟩ : SharedPtr) = 1 := by
        simp [refInd]
      show 1 = countRef w.nextB (updA h0 ⟨some w.nextB, addr⟩ w.handles)
      omega
    · rw [if_neg hbb] at hfc
      have hc := hInvMid.2.2 b c hfc
      refine ⟨?_, hc.2⟩
      have hcu : countRef b (updA h0 (⟨some w.nextB, addr⟩ : SharedPtr)
          (updA h0 emptyS w.handles)) + refInd b emptyS =
          countRef b (updA h0 emptyS w.handles) +
          refInd b (⟨some w.nextB, addr⟩ : SharedPtr) :=
        countRef_updA ⟨some w.nextB, addr⟩ hmid
      rw [hcoll] at hcu
      have he0 : refInd b emptyS = 0 := by simp [refInd, emptyS]
      have hr0 : refInd b (⟨some w.nextB, addr⟩ : SharedPtr) = 0 := by
        simp only [refInd, Option.some.injEq]
        rw [if_neg hbb]
      show c.shared_cnt = countRef b (updA h0 ⟨some w.nextB, addr⟩ w.handles)
      omega

theorem inv_destroy {w : World} (hi : Inv w) {h0 : Nat} {p : SharedPtr}
    (hf : findA h0 w.handles = some p) :
    Inv ⟨SharedPtr.DecreaseCBCounter w.blocks p,
      delA h0 w.handles, w.nextB, w.nextH⟩ := by
  obtain ⟨hhn, hhlt, hblt, hL⟩ := hi
  have hc : ∀ b, countRef b (delA h0 w.handles) + refInd b p =
      countRef b w.handles := fun b => countRef_delA hf
  have href : ∀ h q b, findA h (delA h0 w.handles) = some q →
      q.cb = some b → b ∈ keysOf w.blocks := by
    intro h q b hfq hqb
    by_cases hh : h = h0
    · subst hh
      rw [findA_delA_self hhn] at hfq
      exact absurd hfq (by simp)
    · rw [findA_delA_ne hh] at hfq
      exact hL.2.1 h q b hfq hqb
  exact ⟨nodup_keysOf_delA hhn,
    fun k hk => hhlt k (keysOf_delA_mem hk),
    fun k hk => hblt k (mem_keysOf_decCB hk),
    decCB_invL hL hc href⟩

theorem stepS_inv {w : World} (hi : Inv w) (op : SOp) : Inv (stepS w op) := by
  cases op with
  | fromRaw addr => exact inv_newBlock hi addr
  | makeShared addr => exact inv_newBlock hi (some addr)
  | copyCon src =>
    cases hf : findA src w.handles with
    | none => simpa [stepS, hf] using hi
    | some p =>
      have := inv_copyCon hi hf
      simpa [stepS, hf] using this
  | moveCon src =>
    cases hf : findA src w.handles with
    | none => simpa [stepS, hf] using hi
    | some p =>
      have := inv_moveCon hi hf
      simpa [stepS, hf] using this
  | copyAssign dst src =>
    by_cases hds : dst = src
    · simpa [stepS, hds] using hi
    · cases hfd : findA dst w.handles with
      | none =>
        cases hfs : findA src w.handles with
        | none => simpa [stepS, hds, hfd, hfs] using hi
        | some ps => simpa [stepS, hds, hfd, hfs] using hi
      | some pd =>
        cases hfs : findA src w.handles with
        | none => simpa [stepS, hds, hfd, hfs] using hi
        | some ps =>
          have := inv_copyAssign hi hds hfd hfs
          simpa [stepS, hds, hfd, hfs] using this
  | moveAssign dst src =>
    by_cases hds : dst = src
    · simpa [stepS, hds] using hi
    · cases hfd : findA dst w.handles with
      | none =>
        cases hfs : findA src w.handles with
        | none => simpa [stepS, hds, hfd, hfs] using hi
        | some ps => simpa [stepS, hds, hfd, hfs] using hi
      | some pd =>
        cases hfs : findA src w.handles with
        | none => simpa [stepS, hds, hfd, hfs] using hi
        | some ps =>
          have := inv_moveAssign hi hds hfd hfs
          simpa [stepS, hds, hfd, hfs] using this
  | reset h =>
    cases hf : findA h w.handles with
    | none => simpa [stepS, hf] using hi
    | some p =>
      have := inv_reset hi hf
      simpa [stepS, hf] using this
  | resetPtr h addr =>
    cases hf : findA h w.handles with
    | none => simpa [stepS, hf] using hi
    | some p =>
      have := inv_resetPtr hi hf addr
      simpa [stepS, hf] using this
  | destroy h =>
    cases hf : findA h w.handles with
    | none => simpa [stepS, hf] using hi
    | some p =>
      have := inv_destroy hi hf
      simpa [stepS, hf] using this

theorem inv_initW : Inv initW := by
  refine ⟨?_, ?_, ?_, ?_, ?_, ?_⟩
  · exact List.nodup_nil
  · intro k hk
    simp [initW, keysOf] at hk
  · intro k hk
    simp [initW, keysOf] at hk
  · exact List.nodup_nil
  · intro h p b hf
    simp [initW, findA] at hf
  · intro b c hf
    simp [initW, findA] at hf

theorem runS_inv : ∀ (ops : List SOp) (w : World), Inv w →
    Inv (runS w ops) := by
  intro ops
  induction ops with
  | nil =>
    intro w hi
    exact hi
  | cons op r ih =>
    intro w hi
    exact ih _ (stepS_inv hi op)

/-- C2: after any sequence of SharedPtr operations from the empty world, the
strong count reported by `UseCount()` on every live handle holding a control
block equals the number of live handles referencing that block. -/
theorem claim_C2 : ∀ (ops : List SOp) (e : Nat × SharedPtr) (b : Nat),
    e ∈ (runS initW ops).handles → e.2.cb = some b →
    SharedPtr.UseCount (runS initW ops).blocks e.2 =
      countRef b (runS initW ops).handles := by
  intro ops e b he hb
  have hi := runS_inv ops initW inv_initW
  have hfe := mem_findA hi.hnd he
  have hmem := hi.invL.2.1 e.1 e.2 b hfe hb
  obtain ⟨c, hc⟩ := mem_keys_findA hmem
  have hcnt := hi.invL.2.2 b c hc
  simp only [SharedPtr.UseCount, SharedPtr.GetCBCounter, hb, hc]
  exact hcnt.1

/-- Witness for C2: adopt an address, copy the handle; both handles report
use count 2 = number of live handles on the block. -/
theorem claim_C2_witness :
    SharedPtr.UseCount
        (runS initW [SOp.fromRaw (some 5), SOp.copyCon 0]).blocks
        ⟨some 0, some 5⟩ =
      countRef 0 (runS initW [SOp.fromRaw (some 5), SOp.copyCon 0]).handles :=
  claim_C2 [SOp.fromRaw (some 5), SOp.copyCon 0] (1, ⟨some 0, some 5⟩) 0
    (by decide) rfl

end SmartPointers
